import Mathlib

set_option maxHeartbeats 1000000
set_option linter.unusedVariables false
set_option exponentiation.threshold 5000
set_option maxRecDepth 10000

/-!
Verification of the dynamic value representation of
src/listing/ch06.control_structures/src/value.rs: the tagged union `Value`,
its equality (`impl PartialEq`), strict identity (`Value::same`), hashing
(`impl Hash`), the string size-class codec (`vec_to_short_mid_str`, the
`From` conversions) and the byte/text extraction surface.

Modelling conventions:
- `f64` is modelled by its IEEE-754 binary64 bit pattern, a `Nat` below
  `2^64`; field extraction, the value as an integer scaled by `2^1074`,
  IEEE equality, the Rust `i64 as f64` cast (round to nearest, ties to
  even) and the Rust `f64 as i64` cast (truncate toward zero, saturate,
  NaN to 0) are defined explicitly.
- `i64` is `Int` (the range side conditions are stated where they matter).
- Byte buffers are `List Nat`. Reference-counted pointers (`Rc`) are
  modelled by `Nat` identities where the code compares pointers.
- Rust's `eq` receives references `self` and `other`; in its `Function`
  arm, `std::ptr::eq(f1, f2)` is applied to `f1 f2 : &fn(&mut ExeState) -> i32`,
  the references to the payload slots of the two operands, so it compares
  the operands' own addresses. The embedding of `eq` therefore takes the
  two operand addresses `pa pb : Nat` as extra parameters; every arm other
  than the `Function` arm ignores them.
-/

/-! IEEE-754 binary64 bit-pattern model -/

/-- Sign bit of a binary64 bit pattern. -/
def f64_sign (b : Nat) : Bool := b / 2^63 % 2 = 1

/-- Biased exponent field (11 bits) of a binary64 bit pattern. -/
def f64_exp (b : Nat) : Nat := b / 2^52 % 2^11

/-- Fraction field (52 bits) of a binary64 bit pattern. -/
def f64_frac (b : Nat) : Nat := b % 2^52

/-- A binary64 pattern is a NaN: exponent field all ones, fraction nonzero. -/
def f64_isNan (b : Nat) : Bool := f64_exp b == 2047 && f64_frac b != 0

/-- A binary64 pattern is an infinity: exponent field all ones, fraction zero. -/
def f64_isInf (b : Nat) : Bool := f64_exp b == 2047 && f64_frac b == 0

/-- A binary64 pattern is finite (normal, subnormal or zero). -/
def f64_isFinite (b : Nat) : Bool := f64_exp b != 2047

/-- Magnitude of a finite binary64 pattern, scaled by `2^1074` (so it is a
natural number: subnormals are `frac`, normals are `(2^52 + frac) * 2^(e-1)`). -/
def f64_mag (b : Nat) : Nat :=
  if f64_exp b = 0 then f64_frac b else (2^52 + f64_frac b) * 2^(f64_exp b - 1)

/-- Signed value of a finite binary64 pattern, scaled by `2^1074`. -/
def f64_sval (b : Nat) : Int :=
  if f64_sign b then -(f64_mag b : Int) else (f64_mag b : Int)

/-- IEEE-754 equality on binary64 bit patterns: false if either side is NaN,
numeric-value equality on finite values (so `+0.0 == -0.0`), and same-sign
comparison between infinities. This embeds the Rust `==` on `f64`. -/
def f64_eq (a b : Nat) : Bool :=
  if f64_isNan a || f64_isNan b then false
  else if f64_isFinite a && f64_isFinite b then f64_sval a == f64_sval b
  else (f64_isFinite a == f64_isFinite b) && (f64_sign a == f64_sign b)

/-- Fuel-driven floor base-2 logarithm (used with fuel 64, enough for any
64-bit magnitude); written with fuel so that it evaluates by kernel
reduction. -/
def log2Fuel : Nat → Nat → Nat
  | 0, _ => 0
  | fuel+1, n => if 2 ≤ n then log2Fuel fuel (n / 2) + 1 else 0

/-- Bit pattern of the binary64 nearest to the natural number `n < 2^64`
(round to nearest, ties to even). Together with the sign handling in
`i64toF64` this embeds the Rust `i as f64` cast. -/
def natToF64 (n : Nat) : Nat :=
  if n = 0 then 0 else
  let k := log2Fuel 64 n
  if k ≤ 52 then
    (1023 + k) * 2^52 + (n * 2^(52 - k) - 2^52)
  else
    let sh := k - 52
    let q := n / 2^sh
    let r := n % 2^sh
    let q2 := if 2^sh < 2 * r || (2 * r == 2^sh && q % 2 == 1) then q + 1 else q
    if q2 = 2^53 then (1024 + k) * 2^52
    else (1023 + k) * 2^52 + (q2 - 2^52)

/-- The Rust `i as f64` cast for `i : i64`. -/
def i64toF64 (i : Int) : Nat :=
  if i < 0 then 2^63 + natToF64 i.natAbs else natToF64 i.natAbs

/-- Largest `i64`, as an `Int` (written through `Nat` so that it evaluates
by accelerated kernel arithmetic). -/
def i64Max : Int := ((2^63 - 1 : Nat) : Int)

/-- Smallest `i64`, as an `Int`. -/
def i64Min : Int := -((2^63 : Nat) : Int)

/-- The Rust `f as i64` cast (since Rust 1.45: truncate toward zero,
saturate at the i64 bounds, NaN maps to 0). -/
def f64toI64 (b : Nat) : Int :=
  if f64_isNan b then 0
  else if f64_isFinite b then
    let t : Int := Int.tdiv (f64_sval b) ((2^1074 : Nat) : Int)
    if i64Max < t then i64Max
    else if t < i64Min then i64Min
    else t
  else if f64_sign b then i64Min else i64Max

/-- Reinterpretation of a `u64` bit pattern as an `i64` (the Rust
`f.to_bits() as i64` used by the hash of non-round-trip floats). -/
def u64_as_i64 (n : Nat) : Int :=
  if n < 2^63 then (n : Int) else (n : Int) - ((2^64 : Nat) : Int)

/-- Modelled from the spec: `crate::utils::ftoi` is called by `impl Hash for
Value` but `src/utils.rs` is not included in the sources; spec section 4.4
says the float is hashed as an integer exactly when "the float has an
exact-round-trip integer representation (per the same predicate used in
equality)", i.e. when `(f as i64) as f64 == f` and the cast back returns the
same integer (the second conjunct is definitional here). -/
def ftoi (b : Nat) : Option Int :=
  let i := f64toI64 b
  if f64_eq (i64toF64 i) b then some i else none

/-! The Value type (value.rs lines 13-24).

`ShortStr(u8, [u8; 14])` is a length plus an inline 14-byte buffer,
`MidStr(Rc<(u8, [u8; 47])>)` a shared length plus 47-byte buffer, and
`LongStr(Rc<Vec<u8>>)` a shared growable buffer; buffers are `List Nat` and
the `Rc` indirection is dropped for strings because every string operation
in value.rs reads only the pointee. `Table(Rc<RefCell<Table>>)` and
`Function(fn(&mut ExeState) -> i32)` are compared by pointer, so they carry
their pointer identity as a `Nat`. -/

inductive Value where
  | Nil : Value
  | Boolean (b : Bool) : Value
  | Integer (i : Int) : Value
  | Float (bits : Nat) : Value
  | ShortStr (len : Nat) (buf : List Nat) : Value
  | MidStr (len : Nat) (buf : List Nat) : Value
  | LongStr (s : List Nat) : Value
  | Table (ptr : Nat) : Value
  | Function (fptr : Nat) : Value
  deriving DecidableEq

/-- Embeds `impl PartialEq for Value` (value.rs lines 78-95). `pa` and `pb`
are the addresses of the two operand `Value` objects: the `Function` arm of
the source is `std::ptr::eq(f1, f2)` where `f1 f2 : &fn(&mut ExeState) -> i32`
are references to the payload slots inside the operands, so that arm
compares the operands' addresses; no other arm looks at `pa` or `pb`. -/
def Value.eq (pa pb : Nat) : Value → Value → Bool
  | .Nil, .Nil => true
  | .Boolean b1, .Boolean b2 => b1 == b2
  | .Integer i1, .Integer i2 => i1 == i2
  | .Integer i, .Float f | .Float f, .Integer i =>
      f64_eq (i64toF64 i) f && i == f64toI64 f
  | .Float f1, .Float f2 => f64_eq f1 f2
  | .ShortStr len1 s1, .ShortStr len2 s2 => s1.take len1 == s2.take len2
  | .MidStr len1 s1, .MidStr len2 s2 => s1.take len1 == s2.take len2
  | .LongStr s1, .LongStr s2 => s1 == s2
  | .Table t1, .Table t2 => t1 == t2
  | .Function _, .Function _ => pa == pb
  | _, _ => false

/-- Embeds `mem::discriminant`: the variant tag of a `Value`. -/
def Value.tag : Value → Nat
  | .Nil => 0
  | .Boolean _ => 1
  | .Integer _ => 2
  | .Float _ => 3
  | .ShortStr _ _ => 4
  | .MidStr _ _ => 5
  | .LongStr _ => 6
  | .Table _ => 7
  | .Function _ => 8

/-- Embeds `Value::same` (value.rs lines 103-106):
`mem::discriminant(self) == mem::discriminant(other) && self == other`. -/
def Value.same (pa pb : Nat) (a b : Value) : Bool :=
  a.tag == b.tag && Value.eq pa pb a b

/-- The data a `Value` feeds to the hasher state, as one inductive: `Nil`
writes nothing, `Boolean`/`Integer` write the primitive, a `Float` writes an
`i64` (either `ftoi f` or the raw bits reinterpreted), each string variant
writes its content byte slice (slice hashing is uniform: length then bytes,
captured by the list itself), `Table` writes `Rc::as_ptr` and `Function`
writes the callback pointer `*f as *const usize`. -/
inductive HashData where
  | unit : HashData
  | bool (b : Bool) : HashData
  | int (i : Int) : HashData
  | bytes (bs : List Nat) : HashData
  | ptr (p : Nat) : HashData
  deriving DecidableEq

/-- Embeds `impl Hash for Value` (value.rs lines 110-129). -/
def Value.hashData : Value → HashData
  | .Nil => .unit
  | .Boolean b => .bool b
  | .Integer i => .int i
  | .Float f =>
      match ftoi f with
      | some i => .int i
      | none => .int (u64_as_i64 f)
  | .ShortStr len buf => .bytes (buf.take len)
  | .MidStr len buf => .bytes (buf.take len)
  | .LongStr s => .bytes s
  | .Table t => .ptr t
  | .Function f => .ptr f

/-- A `Value` of the embedding that the Rust type can actually hold: float
bit patterns are 64-bit, integers are in i64 range, string length bytes are
`u8` and the fixed buffers have their declared sizes. -/
def Value.wf : Value → Bool
  | .Float b => b < 2^64
  | .Integer i => i64Min ≤ i && i ≤ i64Max
  | .ShortStr len buf => len < 2^8 && buf.length == 14
  | .MidStr len buf => len < 2^8 && buf.length == 47
  | _ => true

/-- The three string variants. -/
def Value.isStr : Value → Bool
  | .ShortStr _ _ => true
  | .MidStr _ _ => true
  | .LongStr _ => true
  | _ => false

/-- Decoded byte content of a string variant (`[]` for non-strings). -/
def Value.strContent : Value → List Nat
  | .ShortStr len buf => buf.take len
  | .MidStr len buf => buf.take len
  | .LongStr s => s
  | _ => []

/-- A string `Value` whose variant agrees with the size-class boundary rule
(every `Value` built by the construction surface satisfies this; an
artificially forced variant need not). -/
def Value.strWF : Value → Bool
  | .ShortStr len buf => buf.length == 14 && len ≤ 14
  | .MidStr len buf => buf.length == 47 && 15 ≤ len && len ≤ 47
  | .LongStr s => 48 ≤ s.length
  | _ => false

/-- The error conditions of the extraction surface (spec section 7). The
source signals `InvalidStringAccess` by a fatal assertion
(the catch-all arm of the byte extraction) and `InvalidEncoding` by the
failure of UTF-8 validation; both are modelled as `Except.error`. -/
inductive StrError where
  | invalidStringAccess : StrError
  | invalidEncoding : StrError
  deriving DecidableEq

/-- Embeds `impl From<&Value> for &[u8]` (value.rs lines 201-210): returns
the content of the three string variants and fails on every other variant. -/
def Value.to_bytes : Value → Except StrError (List Nat)
  | .ShortStr len buf => .ok (buf.take len)
  | .MidStr len buf => .ok (buf.take len)
  | .LongStr s => .ok s
  | _ => .error .invalidStringAccess

/-! String size-class codec (value.rs lines 158-198) -/

/-- Embeds `vec_to_short_mid_str` (value.rs lines 182-197): an inline
14-byte `ShortStr` for lengths up to 14, a 47-byte `MidStr` for lengths up
to 47, otherwise `None`; the fixed buffers are zero-padded. -/
def vec_to_short_mid_str (v : List Nat) : Option Value :=
  let len := v.length
  if len ≤ 14 then
    some (.ShortStr len (v ++ List.replicate (14 - len) 0))
  else if len ≤ 47 then
    some (.MidStr len (v ++ List.replicate (47 - len) 0))
  else
    none

/-- Embeds `impl From<&[u8]> for Value`:
`vec_to_short_mid_str(v).unwrap_or_else(|| Value::LongStr(Rc::new(v.to_vec())))`. -/
def Value.from_slice (v : List Nat) : Value :=
  (vec_to_short_mid_str v).getD (.LongStr v)

/-- Embeds `impl From<Vec<u8>> for Value`:
`vec_to_short_mid_str(&v).unwrap_or_else(|| Value::LongStr(Rc::new(v)))`. -/
def Value.from_vec (v : List Nat) : Value :=
  (vec_to_short_mid_str v).getD (.LongStr v)

/-- UTF-8 encoding of one Unicode scalar value (the bytes `str::as_bytes`
stores for it). -/
def utf8EncodeChar (c : Nat) : List Nat :=
  if c < 0x80 then [c]
  else if c < 0x800 then [0xC0 + c / 0x40, 0x80 + c % 0x40]
  else if c < 0x10000 then
    [0xE0 + c / 0x1000, 0x80 + c / 0x40 % 0x40, 0x80 + c % 0x40]
  else
    [0xF0 + c / 0x40000, 0x80 + c / 0x1000 % 0x40, 0x80 + c / 0x40 % 0x40,
     0x80 + c % 0x40]

/-- UTF-8 encoding of a text (a list of Unicode scalar values): the byte
sequence `str::as_bytes` / `String::into_bytes` exposes. -/
def utf8Encode (s : List Nat) : List Nat := (s.map utf8EncodeChar).flatten

/-- Embeds `impl From<&str> for Value`: `s.as_bytes().into()`, the byte
slice route. Text is a list of Unicode scalar values. -/
def Value.from_str (s : List Nat) : Value :=
  Value.from_slice (utf8Encode s)

/-- Embeds `impl From<String> for Value`: `s.into_bytes().into()`, the byte
vector route. -/
def Value.from_string (s : List Nat) : Value :=
  Value.from_vec (utf8Encode s)

/-! UTF-8 validation and decoding (the std semantics behind
`std::str::from_utf8` and `String::from_utf8_lossy` used by the text
extraction impls, value.rs lines 212-222). -/

/-- Is `b` a UTF-8 continuation byte. -/
def utf8Cont (b : Nat) : Bool := 0x80 ≤ b && b ≤ 0xBF

/-- Allowed first continuation byte after a three-byte lead (excludes
overlong forms after `E0` and surrogates after `ED`). -/
def utf8Cont3First (b0 b1 : Nat) : Bool :=
  if b0 = 0xE0 then 0xA0 ≤ b1 && b1 ≤ 0xBF
  else if b0 = 0xED then 0x80 ≤ b1 && b1 ≤ 0x9F
  else utf8Cont b1

/-- Allowed first continuation byte after a four-byte lead (excludes
overlong forms after `F0` and values above `U+10FFFF` after `F4`). -/
def utf8Cont4First (b0 b1 : Nat) : Bool :=
  if b0 = 0xF0 then 0x90 ≤ b1 && b1 ≤ 0xBF
  else if b0 = 0xF4 then 0x80 ≤ b1 && b1 ≤ 0x8F
  else utf8Cont b1

/-- Parse one UTF-8 sequence whose lead byte is `b0` and whose following
bytes start `rest`: returns the scalar value (or `none` on malformed input)
and the number of bytes consumed from `rest` (the lead byte itself is
always consumed). On failure the consumed count is the length of the
maximal valid prefix of a sequence minus one, matching the substitution
granularity of `String::from_utf8_lossy`. -/
def utf8Step (b0 : Nat) (rest : List Nat) : Option Nat × Nat :=
  if b0 ≤ 0x7F then (some b0, 0)
  else if b0 < 0xC2 then (none, 0)
  else if b0 ≤ 0xDF then
    match rest with
    | b1 :: _ =>
        if utf8Cont b1 then (some ((b0 - 0xC0) * 0x40 + (b1 - 0x80)), 1)
        else (none, 0)
    | [] => (none, 0)
  else if b0 ≤ 0xEF then
    match rest with
    | b1 :: rest1 =>
        if utf8Cont3First b0 b1 then
          match rest1 with
          | b2 :: _ =>
              if utf8Cont b2 then
                (some (((b0 - 0xE0) * 0x40 + (b1 - 0x80)) * 0x40 + (b2 - 0x80)), 2)
              else (none, 1)
          | [] => (none, 1)
        else (none, 0)
    | [] => (none, 0)
  else if b0 ≤ 0xF4 then
    match rest with
    | b1 :: rest1 =>
        if utf8Cont4First b0 b1 then
          match rest1 with
          | b2 :: rest2 =>
              if utf8Cont b2 then
                match rest2 with
                | b3 :: _ =>
                    if utf8Cont b3 then
                      (some ((((b0 - 0xF0) * 0x40 + (b1 - 0x80)) * 0x40
                        + (b2 - 0x80)) * 0x40 + (b3 - 0x80)), 3)
                    else (none, 2)
                | [] => (none, 2)
              else (none, 1)
          | [] => (none, 1)
        else (none, 0)
    | [] => (none, 0)
  else (none, 0)

/-- Strict UTF-8 decoding with fuel (`some` iff the bytes are valid UTF-8,
the semantics of `std::str::from_utf8`); one unit of fuel per lead byte, so
fuel equal to the byte count always suffices. -/
def utf8DecodeFuel : Nat → List Nat → Option (List Nat)
  | _, [] => some []
  | 0, _ :: _ => none
  | fuel+1, b0 :: rest =>
      match utf8Step b0 rest with
      | (some c, k) => (utf8DecodeFuel fuel (rest.drop k)).map (c :: ·)
      | (none, _) => none

/-- Strict UTF-8 decoding: the scalar values, or `none` on invalid input. -/
def utf8Decode (l : List Nat) : Option (List Nat) := utf8DecodeFuel l.length l

/-- Lossy UTF-8 decoding with fuel: each maximal invalid subpart becomes one
`U+FFFD` (the semantics of `String::from_utf8_lossy`). -/
def utf8LossyFuel : Nat → List Nat → List Nat
  | _, [] => []
  | 0, _ :: _ => []
  | fuel+1, b0 :: rest =>
      match utf8Step b0 rest with
      | (some c, k) => c :: utf8LossyFuel fuel (rest.drop k)
      | (none, k) => 0xFFFD :: utf8LossyFuel fuel (rest.drop k)

/-- Lossy UTF-8 decoding (total). -/
def utf8DecodeLossy (l : List Nat) : List Nat := utf8LossyFuel l.length l

/-- Embeds `impl From<&Value> for &str` (value.rs lines 212-216): extract
the byte content, then `std::str::from_utf8(..).unwrap()`; the unwrap on
invalid bytes is the `InvalidEncoding` condition. -/
def Value.to_str (v : Value) : Except StrError (List Nat) :=
  match v.to_bytes with
  | .error e => .error e
  | .ok bs =>
      match utf8Decode bs with
      | some cps => .ok cps
      | none => .error .invalidEncoding

/-- Embeds `impl From<&Value> for String` (value.rs lines 218-222): extract
the byte content, then `String::from_utf8_lossy`. -/
def Value.to_string_lossy (v : Value) : Except StrError (List Nat) :=
  match v.to_bytes with
  | .error e => .error e
  | .ok bs => .ok (utf8DecodeLossy bs)

/-! Table allocation (value.rs lines 33-40 plus the `Rc::new` that turns a
`Table` into a `Value::Table`). -/

/-- Allocator state: the next fresh pointer identity. -/
structure AllocState where
  next : Nat
  deriving DecidableEq

/-- Models `Value::Table(Rc::new(RefCell::new(Table::new(narray, nmap))))`:
a fresh aggregate instance gets a fresh pointer identity; the capacity
hints only preallocate storage and are irrelevant to identity. -/
def Table.new (narray nmap : Nat) (st : AllocState) : Value × AllocState :=
  (Value.Table st.next, ⟨st.next + 1⟩)

/-- The string size class the codec chooses, read off a constructed `Value`. -/
inductive StrClass where
  | short : StrClass
  | mid : StrClass
  | long : StrClass
  deriving DecidableEq

/-- Size class of a string variant (`none` for non-strings). -/
def strClassOf : Value → Option StrClass
  | .ShortStr _ _ => some .short
  | .MidStr _ _ => some .mid
  | .LongStr _ => some .long
  | _ => none

/-- The boundary rule of spec section 3, stated on the byte length alone:
length up to 14 is short, 15 to 47 is mid, 48 and beyond is long. -/
def classByLen (n : Nat) : StrClass :=
  if n ≤ 14 then .short else if n ≤ 47 then .mid else .long

/-! Helper lemmas -/

/-- Equality is reflexive on string variants (their arms compare contents). -/
theorem eq_str_refl (pa pb : Nat) (v : Value) (h : v.isStr = true) :
    Value.eq pa pb v v = true := by
  cases v <;> first
    | exact Bool.noConfusion h
    | exact beq_self_eq_true _

/-- A constructed string value is a string variant. -/
theorem from_slice_isStr (v : List Nat) : (Value.from_slice v).isStr = true := by
  unfold Value.from_slice vec_to_short_mid_str
  by_cases h1 : v.length ≤ 14 <;> by_cases h2 : v.length ≤ 47 <;>
    simp [h1, h2, Value.isStr]

/-- Lists of different lengths are not `==`. -/
theorem content_len_ne {xs ys : List Nat} (h : xs.length ≠ ys.length) :
    (xs == ys) = false :=
  beq_eq_false_iff_ne.mpr (fun e => h (e ▸ rfl))

/-- On a size-class-respecting string value the variant is determined by the
content length through the boundary rule. -/
theorem strWF_class_len (v : Value) (h : v.strWF = true) :
    strClassOf v = some (classByLen v.strContent.length) := by
  cases v with
  | ShortStr len buf =>
      have h2 := Bool.and_eq_true_iff.mp h
      have hl : buf.length = 14 := eq_of_beq h2.1
      have hle : len ≤ 14 := of_decide_eq_true h2.2
      simp only [strClassOf, Value.strContent, List.length_take, hl, classByLen]
      rw [if_pos (by omega)]
  | MidStr len buf =>
      have h2 := Bool.and_eq_true_iff.mp h
      have h3 := Bool.and_eq_true_iff.mp h2.1
      have hl : buf.length = 47 := eq_of_beq h3.1
      have hge : 15 ≤ len := of_decide_eq_true h3.2
      have hle : len ≤ 47 := of_decide_eq_true h2.2
      simp only [strClassOf, Value.strContent, List.length_take, hl, classByLen]
      rw [if_neg (by omega), if_pos (by omega)]
  | LongStr s =>
      have hge : 48 ≤ s.length := of_decide_eq_true h
      simp only [strClassOf, Value.strContent, classByLen]
      rw [if_neg (by omega), if_neg (by omega)]
  | Nil => exact Bool.noConfusion h
  | Boolean b => exact Bool.noConfusion h
  | Integer i => exact Bool.noConfusion h
  | Float f => exact Bool.noConfusion h
  | Table t => exact Bool.noConfusion h
  | Function f => exact Bool.noConfusion h

/-! Claim theorems -/

/-- C4: string encoding is total and deterministic: for every byte sequence
the constructed `Value` has the variant dictated solely by the length
boundary rule (up to 14 short, 15 to 47 mid, 48 and beyond long), and
decoding it returns exactly the original bytes. -/
theorem c4_string_codec_roundtrip :
    ∀ v : List Nat, (Value.from_slice v).to_bytes = Except.ok v ∧
      strClassOf (Value.from_slice v) = some (classByLen v.length) := by
  intro v
  by_cases h1 : v.length ≤ 14
  · simp [Value.from_slice, vec_to_short_mid_str, h1, Value.to_bytes, strClassOf,
      classByLen, List.take_left]
  · by_cases h2 : v.length ≤ 47
    · simp [Value.from_slice, vec_to_short_mid_str, h1, h2, Value.to_bytes,
        strClassOf, classByLen, List.take_left]
    · simp [Value.from_slice, vec_to_short_mid_str, h1, h2, Value.to_bytes,
        strClassOf, classByLen]

/-- C6: byte-slice extraction returns the decoded content for each of the
three string variants and fails with the `InvalidStringAccess` condition
(the source's fatal assertion, modelled as the error result) on every
non-string variant, in particular on `Integer(5)`. -/
theorem c6_extraction_invalid_access :
    (∀ len buf, (Value.ShortStr len buf).to_bytes = Except.ok (buf.take len)) ∧
    (∀ len buf, (Value.MidStr len buf).to_bytes = Except.ok (buf.take len)) ∧
    (∀ s, (Value.LongStr s).to_bytes = Except.ok s) ∧
    (∀ v : Value, v.isStr = false →
      v.to_bytes = Except.error StrError.invalidStringAccess) ∧
    (Value.Integer 5).to_bytes = Except.error StrError.invalidStringAccess := by
  refine ⟨fun _ _ => rfl, fun _ _ => rfl, fun _ => rfl, ?_, rfl⟩
  intro v h
  cases v <;> first | rfl | exact Bool.noConfusion h

theorem c6_witness :
    Value.isStr (Value.Boolean true) = false ∧
    (Value.Boolean true).to_bytes = Except.error StrError.invalidStringAccess :=
  ⟨rfl, c6_extraction_invalid_access.2.2.2.1 (Value.Boolean true) rfl⟩

/-- C10: all construction surfaces agree: the byte-slice and byte-vector
constructors are the same function, the text constructors delegate to them
through UTF-8 encoding, and the resulting values are identical (hence equal
under `eq`) with the same size class. -/
theorem c10_construction_surfaces_agree :
    ∀ (b s : List Nat) (pa pb : Nat),
      Value.from_vec b = Value.from_slice b ∧
      Value.from_str s = Value.from_slice (utf8Encode s) ∧
      Value.from_string s = Value.from_str s ∧
      strClassOf (Value.from_str s) = strClassOf (Value.from_string s) ∧
      Value.eq pa pb (Value.from_str s) (Value.from_slice (utf8Encode s)) = true := by
  intro b s pa pb
  refine ⟨rfl, rfl, rfl, rfl, ?_⟩
  exact eq_str_refl pa pb _ (from_slice_isStr (utf8Encode s))

/-- C5: `same` is true iff the variant tags agree and `eq` holds; outside
the Integer/Float cross pair, `same` and `eq` coincide; on the cross pair
`same` is strictly narrower: `eq(Integer 1, Float 1.0)` is true while
`same(Integer 1, Float 1.0)` is false, and `eq(Integer 1, Float 1.5)` is
false. -/
theorem c5_same_iff_tag_and_eq :
    ∀ (pa pb : Nat) (a b : Value),
      (Value.same pa pb a b = (a.tag == b.tag && Value.eq pa pb a b)) ∧
      ((¬ ((a.tag = 2 ∧ b.tag = 3) ∨ (a.tag = 3 ∧ b.tag = 2))) →
        Value.same pa pb a b = Value.eq pa pb a b) ∧
      Value.eq pa pb (Value.Integer 1) (Value.Float (i64toF64 1)) = true ∧
      Value.same pa pb (Value.Integer 1) (Value.Float (i64toF64 1)) = false ∧
      Value.eq pa pb (Value.Integer 1) (Value.Float (1023 * 2^52 + 2^51)) = false := by
  intro pa pb a b
  refine ⟨rfl, ?_, rfl, rfl, rfl⟩
  intro hcross
  cases a <;> cases b <;> first
    | rfl
    | exact (hcross (by simp [Value.tag])).elim

theorem c5_witness :
    Value.same 0 1 (Value.Boolean true) (Value.Boolean true) =
      Value.eq 0 1 (Value.Boolean true) (Value.Boolean true) :=
  (c5_same_iff_tag_and_eq 0 1 (Value.Boolean true) (Value.Boolean true)).2.1
    (by decide)

/-- C7: Table equality is referential (same pointer identity; separately
allocated tables get distinct identities, a clone shares its source's); but
the source's Function arm compares the addresses of the two operand payload
slots, so two distinct `Value` objects holding the same native callback
compare unequal, contradicting the claim's Function clause. -/
theorem c7_referential_identity :
    (∀ pa pb t1 t2, Value.eq pa pb (Value.Table t1) (Value.Table t2) = (t1 == t2)) ∧
    (∀ (st : AllocState) (pa pb na nm na2 nm2 : Nat),
        Value.eq pa pb (Table.new na nm st).1
          (Table.new na2 nm2 (Table.new na nm st).2).1 = false ∧
        Value.eq pa pb (Table.new na nm st).1 (Table.new na nm st).1 = true) ∧
    Value.eq 0 1 (Value.Function 5) (Value.Function 5) = false := by
  refine ⟨fun _ _ _ _ => rfl, ?_, rfl⟩
  intro st pa pb na nm na2 nm2
  constructor
  · show (st.next == st.next + 1) = false
    simp only [beq_eq_false_iff_ne]
    omega
  · exact beq_self_eq_true st.next

/-- C8: Float vs Float comparison is exactly IEEE equality (so a NaN equals
nothing, including itself, while positive and negative zero are equal), and
every mismatched-category pair — any two values with different variant
tags apart from the numeric Integer/Float cross pair (tags 2/3), e.g.
Nil vs Boolean(false) — is false with no falsiness coercion. -/
theorem c8_float_ieee_equality :
    (∀ pa pb f1 f2 : Nat,
        Value.eq pa pb (Value.Float f1) (Value.Float f2) = f64_eq f1 f2) ∧
    (∀ f g : Nat, f64_isNan f = true → f64_eq f g = false ∧ f64_eq g f = false) ∧
    Value.eq 0 1 (Value.Float (2047 * 2^52 + 1)) (Value.Float (2047 * 2^52 + 1)) = false ∧
    Value.eq 0 1 (Value.Float 0) (Value.Float (2^63)) = true ∧
    (∀ pa pb : Nat, Value.eq pa pb Value.Nil (Value.Boolean false) = false) ∧
    (∀ (pa pb : Nat) (a b : Value), a.tag ≠ b.tag →
      (¬ ((a.tag = 2 ∧ b.tag = 3) ∨ (a.tag = 3 ∧ b.tag = 2))) →
      Value.eq pa pb a b = false) := by
  refine ⟨fun _ _ _ _ => rfl, ?_, by decide, by decide, fun _ _ => rfl, ?_⟩
  · intro f g h
    constructor <;> simp [f64_eq, h]
  · intro pa pb a b htag hcross
    cases a <;> cases b <;> first
      | rfl
      | exact absurd rfl htag
      | exact (hcross (by simp [Value.tag])).elim

theorem c8_witness :
    (f64_eq (2047 * 2^52 + 1) 0 = false ∧ f64_eq 0 (2047 * 2^52 + 1) = false) ∧
    Value.eq 0 1 (Value.Integer 7) (Value.Table 7) = false :=
  ⟨c8_float_ieee_equality.2.1 (2047 * 2^52 + 1) 0 (by decide),
   c8_float_ieee_equality.2.2.2.2.2 0 1 (Value.Integer 7) (Value.Table 7)
     (by decide) (by decide)⟩

/-- C1 counterexample: a 3-byte content carried by a `ShortStr` and the same
3 bytes artificially forced through a `MidStr` decode to equal contents (and
even hash equal), yet `eq` returns false because the source has no
cross-variant string arm. -/
theorem c1_cex_cross_variant :
    Value.eq 0 1 (Value.ShortStr 3 ([97, 98, 99] ++ List.replicate 11 0))
      (Value.MidStr 3 ([97, 98, 99] ++ List.replicate 44 0)) = false ∧
    (Value.ShortStr 3 ([97, 98, 99] ++ List.replicate 11 0)).strContent =
      (Value.MidStr 3 ([97, 98, 99] ++ List.replicate 44 0)).strContent ∧
    (Value.ShortStr 3 ([97, 98, 99] ++ List.replicate 11 0)).hashData =
      (Value.MidStr 3 ([97, 98, 99] ++ List.replicate 44 0)).hashData := by
  decide

/-- C1 (amended): for string values whose variant agrees with the size-class
boundary rule (true of every constructed string, where the variant is a
function of the length), `eq` is exactly decoded-content equality; the
same-variant arms compare contents and the cross-variant combinations,
which always differ in content length, return false. -/
theorem c1_string_eq_by_content :
    ∀ (pa pb : Nat) (a b : Value), a.strWF = true → b.strWF = true →
      Value.eq pa pb a b = (a.strContent == b.strContent) := by
  intro pa pb a b hwa hwb
  cases a <;> cases b <;> first
    | exact Bool.noConfusion hwa
    | exact Bool.noConfusion hwb
    | rfl
    | (refine Eq.trans ?_ (content_len_ne (fun hlen => ?_)).symm
       · rfl
       · have ha1 := strWF_class_len _ hwa
         have hb1 := strWF_class_len _ hwb
         injection ha1 with ha2
         injection hb1 with hb2
         rw [hlen] at ha2
         exact StrClass.noConfusion (ha2.trans hb2.symm))

theorem c1_witness :
    Value.eq 0 1 (Value.ShortStr 3 (List.replicate 14 7))
      (Value.LongStr (List.replicate 48 5)) =
    ((Value.ShortStr 3 (List.replicate 14 7)).strContent ==
      (Value.LongStr (List.replicate 48 5)).strContent) :=
  c1_string_eq_by_content 0 1 _ _ (by decide) (by decide)

/-! UTF-8 decoder lemmas for the text extraction claim -/

/-- When strict decoding succeeds, lossy decoding produces the same text. -/
theorem utf8LossyFuel_eq_of_decode :
    ∀ (fuel : Nat) (l cps : List Nat), l.length ≤ fuel →
      utf8DecodeFuel fuel l = some cps → utf8LossyFuel fuel l = cps := by
  intro fuel
  induction fuel with
  | zero =>
      intro l cps hl h
      match l, hl with
      | [], _ => cases h; rfl
  | succ n ih =>
      intro l cps hl h
      match l with
      | [] => cases h; rfl
      | b0 :: rest =>
          have hr : rest.length ≤ n := by
            simp only [List.length_cons] at hl; omega
          rcases hst : utf8Step b0 rest with ⟨o, k⟩
          cases o with
          | some c =>
              simp only [utf8DecodeFuel, utf8LossyFuel, hst] at h ⊢
              rcases hd : utf8DecodeFuel n (rest.drop k) with _ | cps2
              · rw [hd] at h; exact Option.noConfusion h
              · rw [hd] at h
                cases h
                rw [ih (rest.drop k) cps2 (by simp only [List.length_drop]; omega) hd]
          | none =>
              simp only [utf8DecodeFuel, hst] at h
              exact Option.noConfusion h

/-- When strict decoding fails, the lossy decoding contains the replacement
character `U+FFFD`. -/
theorem utf8LossyFuel_mem_of_none :
    ∀ (fuel : Nat) (l : List Nat), l.length ≤ fuel →
      utf8DecodeFuel fuel l = none → 0xFFFD ∈ utf8LossyFuel fuel l := by
  intro fuel
  induction fuel with
  | zero =>
      intro l hl h
      match l, hl with
      | [], _ => exact Option.noConfusion h
  | succ n ih =>
      intro l hl h
      match l with
      | [] => exact Option.noConfusion h
      | b0 :: rest =>
          have hr : rest.length ≤ n := by
            simp only [List.length_cons] at hl; omega
          rcases hst : utf8Step b0 rest with ⟨o, k⟩
          cases o with
          | some c =>
              simp only [utf8DecodeFuel, utf8LossyFuel, hst] at h ⊢
              rcases hd : utf8DecodeFuel n (rest.drop k) with _ | cps2
              · exact List.mem_cons_of_mem c
                  (ih (rest.drop k) (by simp only [List.length_drop]; omega) hd)
              · rw [hd] at h; exact Option.noConfusion h
          | none =>
              simp only [utf8LossyFuel, hst]
              exact List.mem_cons_self _ _

/-- Extraction on string variants yields the decoded content. -/
theorem to_bytes_isStr (v : Value) (h : v.isStr = true) :
    v.to_bytes = Except.ok v.strContent := by
  cases v <;> first | rfl | exact Bool.noConfusion h

/-- C9: on a string-variant `Value`, strict text extraction returns the
decoded text exactly when the content bytes are valid UTF-8 and fails with
the `InvalidEncoding` condition otherwise, while lossy extraction always
succeeds, agrees with the strict decoding on valid input, and substitutes
the replacement character on invalid input. -/
theorem c9_text_extraction :
    ∀ v : Value, v.isStr = true →
      (∀ cps, utf8Decode v.strContent = some cps →
        v.to_str = Except.ok cps ∧ v.to_string_lossy = Except.ok cps) ∧
      (utf8Decode v.strContent = none →
        v.to_str = Except.error StrError.invalidEncoding ∧
        v.to_string_lossy = Except.ok (utf8DecodeLossy v.strContent) ∧
        0xFFFD ∈ utf8DecodeLossy v.strContent) := by
  intro v hstr
  have hb := to_bytes_isStr v hstr
  constructor
  · intro cps hdec
    constructor
    · simp only [Value.to_str, hb, hdec]
    · simp only [Value.to_string_lossy, hb]
      exact congrArg Except.ok
        (utf8LossyFuel_eq_of_decode v.strContent.length v.strContent cps le_rfl hdec)
  · intro hdec
    refine ⟨?_, ?_, ?_⟩
    · simp only [Value.to_str, hb, hdec]
    · simp only [Value.to_string_lossy, hb]
    · exact utf8LossyFuel_mem_of_none v.strContent.length v.strContent le_rfl hdec

theorem c9_witness :
    (Value.ShortStr 1 (255 :: List.replicate 13 0)).to_str =
      Except.error StrError.invalidEncoding ∧
    (Value.ShortStr 1 (255 :: List.replicate 13 0)).to_string_lossy =
      Except.ok (utf8DecodeLossy (Value.ShortStr 1 (255 :: List.replicate 13 0)).strContent) ∧
    0xFFFD ∈ utf8DecodeLossy (Value.ShortStr 1 (255 :: List.replicate 13 0)).strContent :=
  (c9_text_extraction (Value.ShortStr 1 (255 :: List.replicate 13 0)) (by decide)).2
    (by decide)

/-! Bounds for the integer-to-float conversion: casting an in-range `i64`
always produces a finite 64-bit pattern. -/

/-- The fuel-driven logarithm brackets its argument when the fuel covers it. -/
theorem log2Fuel_bounds :
    ∀ (fuel n : Nat), 1 ≤ n → n < 2^fuel →
      2^(log2Fuel fuel n) ≤ n ∧ n < 2^(log2Fuel fuel n + 1) := by
  intro fuel
  induction fuel with
  | zero =>
      intro n h1 h2
      norm_num at h2
      omega
  | succ f ih =>
      intro n h1 h2
      rw [log2Fuel]
      by_cases h : 2 ≤ n
      · rw [if_pos h]
        have hn2 : n / 2 < 2^f := by
          rw [Nat.div_lt_iff_lt_mul (by norm_num)]
          calc n < 2^(f+1) := h2
            _ = 2^f * 2 := by rw [pow_succ]
        have h12 : 1 ≤ n / 2 := (Nat.one_le_div_iff (by norm_num)).mpr h
        obtain ⟨hlo, hhi⟩ := ih (n/2) h12 hn2
        constructor
        · calc 2^(log2Fuel f (n/2) + 1) = 2^(log2Fuel f (n/2)) * 2 := by rw [pow_succ]
            _ ≤ (n/2) * 2 := by omega
            _ ≤ n := by omega
        · have hstep : n/2 + 1 ≤ 2^(log2Fuel f (n/2) + 1) := hhi
          calc n < (n/2 + 1) * 2 := by omega
            _ ≤ 2^(log2Fuel f (n/2) + 1) * 2 := by omega
            _ = 2^(log2Fuel f (n/2) + 1 + 1) := by ring
      · rw [if_neg h]
        refine ⟨by simpa using h1, ?_⟩
        have : n < 2 := by omega
        simpa using this

/-- `natToF64` of a 64-bit magnitude stays in the positive finite range:
the pattern is below `2^63` (sign bit clear) and its exponent field is at
most 1087. -/
theorem natToF64_bounds (n : Nat) (hn : n < 2^64) :
    natToF64 n < 2^63 ∧ natToF64 n / 2^52 ≤ 1087 := by
  unfold natToF64
  by_cases h0 : n = 0
  · simp [h0]
  · simp only [h0, if_false]
    have hpos : 1 ≤ n := Nat.one_le_iff_ne_zero.mpr h0
    obtain ⟨hlo, hhi⟩ := log2Fuel_bounds 64 n hpos hn
    set k := log2Fuel 64 n with hk
    have hk63 : k ≤ 63 := by
      by_contra hc
      push_neg at hc
      have hpow : (2:Nat)^64 ≤ 2^k := Nat.pow_le_pow_right (by norm_num) (by omega)
      omega
    by_cases hk52 : k ≤ 52
    · simp only [hk52, if_true]
      have hmul : n * 2^(52-k) < 2^53 := by
        calc n * 2^(52-k) < 2^(k+1) * 2^(52-k) :=
              (Nat.mul_lt_mul_right (Nat.two_pow_pos _)).mpr hhi
          _ = 2^53 := by rw [← pow_add]; congr 1; omega
      have hmul2 : 2^52 ≤ n * 2^(52-k) := by
        calc (2:Nat)^52 = 2^k * 2^(52-k) := by rw [← pow_add]; congr 1; omega
          _ ≤ n * 2^(52-k) := Nat.mul_le_mul_right _ hlo
      generalize hA : n * 2^(52-k) = A at hmul hmul2
      constructor
      · omega
      · omega
    · simp only [hk52, if_false]
      have hk53 : 53 ≤ k := by omega
      have hqlo : 2^52 ≤ n / 2^(k-52) := by
        have h1 : 2^k / 2^(k-52) ≤ n / 2^(k-52) := Nat.div_le_div_right hlo
        rw [Nat.pow_div (by omega) (by norm_num)] at h1
        have h2 : k - (k-52) = 52 := by omega
        rw [h2] at h1
        exact h1
      have hqhi : n / 2^(k-52) < 2^53 := by
        rw [Nat.div_lt_iff_lt_mul (Nat.two_pow_pos _)]
        calc n < 2^(k+1) := hhi
          _ = 2^53 * 2^(k-52) := by rw [← pow_add]; congr 1; omega
      generalize hq : n / 2^(k-52) = q at hqlo hqhi ⊢
      split_ifs with hup h53 h53 <;> exact ⟨by omega, by omega⟩

/-- An in-range `i64` casts to a 64-bit, finite float pattern. -/
theorem i64toF64_repr (i : Int) (h1 : i64Min ≤ i) (h2 : i ≤ i64Max) :
    i64toF64 i < 2^64 ∧ f64_isFinite (i64toF64 i) = true := by
  have habs : i.natAbs ≤ 2^63 := by
    simp only [i64Min, i64Max] at h1 h2
    omega
  have hlt : i.natAbs < 2^64 := by omega
  obtain ⟨hb, hd⟩ := natToF64_bounds i.natAbs hlt
  unfold i64toF64
  by_cases hneg : i < 0
  · rw [if_pos hneg]
    refine ⟨by omega, ?_⟩
    simp only [f64_isFinite, f64_exp]
    rw [bne_iff_ne]
    omega
  · rw [if_neg hneg]
    refine ⟨by omega, ?_⟩
    simp only [f64_isFinite, f64_exp]
    rw [bne_iff_ne]
    omega

/-! Structure of IEEE equality, and congruence of the casts and of `ftoi`
along IEEE-equal patterns (the facts behind hash consistency). -/

/-- A non-finite pattern has an all-ones exponent field. -/
theorem not_finite_exp {a : Nat} (h : f64_isFinite a = false) : f64_exp a = 2047 := by
  simpa [f64_isFinite] using h

/-- A finite pattern is not a NaN. -/
theorem finite_not_nan {a : Nat} (h : f64_isFinite a = true) : f64_isNan a = false := by
  simp only [f64_isFinite, bne_iff_ne] at h
  simp [f64_isNan, h]

/-- A non-finite pattern that is not a NaN is an infinity: all-ones exponent
and zero fraction. -/
theorem nonfinite_not_nan_facts {a : Nat} (hn : f64_isNan a = false)
    (hf : f64_isFinite a = false) : f64_exp a = 2047 ∧ f64_frac a = 0 := by
  have he := not_finite_exp hf
  refine ⟨he, ?_⟩
  simpa [f64_isNan, he] using hn

/-- What a true IEEE comparison says about the two patterns. -/
theorem f64_eq_elim {a b : Nat} (h : f64_eq a b = true) :
    f64_isNan a = false ∧ f64_isNan b = false ∧
      ((f64_isFinite a = true ∧ f64_isFinite b = true ∧ f64_sval a = f64_sval b) ∨
       (f64_isFinite a = false ∧ f64_isFinite b = false ∧ f64_sign a = f64_sign b)) := by
  unfold f64_eq at h
  cases hna : f64_isNan a <;> cases hnb : f64_isNan b <;>
    cases hfa : f64_isFinite a <;> cases hfb : f64_isFinite b <;>
      rw [hna, hnb, hfa, hfb] at h <;> simp at h
  · exact ⟨rfl, rfl, Or.inr ⟨rfl, rfl, h⟩⟩
  · exact ⟨rfl, rfl, Or.inl ⟨rfl, rfl, h⟩⟩

/-- IEEE-equal patterns cast to the same integer. -/
theorem f64toI64_congr {a b : Nat} (h : f64_eq a b = true) :
    f64toI64 a = f64toI64 b := by
  obtain ⟨hna, hnb, hrest⟩ := f64_eq_elim h
  rcases hrest with ⟨hfa, hfb, hsv⟩ | ⟨hfa, hfb, hsg⟩
  · simp [f64toI64, hna, hnb, hfa, hfb, hsv]
  · simp [f64toI64, hna, hnb, hfa, hfb, hsg]

/-- IEEE equality is a congruence in its second argument. -/
theorem f64_eq_congr {a b : Nat} (h : f64_eq a b = true) (x : Nat) :
    f64_eq x a = f64_eq x b := by
  obtain ⟨hna, hnb, hrest⟩ := f64_eq_elim h
  rcases hrest with ⟨hfa, hfb, hsv⟩ | ⟨hfa, hfb, hsg⟩
  · cases hnx : f64_isNan x <;> cases hfx : f64_isFinite x <;>
      simp [f64_eq, hna, hnb, hfa, hfb, hsv, hnx, hfx]
  · cases hnx : f64_isNan x <;> cases hfx : f64_isFinite x <;>
      simp [f64_eq, hna, hnb, hfa, hfb, hsg, hnx, hfx]

/-- `ftoi` agrees on IEEE-equal patterns. -/
theorem ftoi_congr {a b : Nat} (h : f64_eq a b = true) : ftoi a = ftoi b := by
  have h1 := f64toI64_congr h
  have h2 := f64_eq_congr h (i64toF64 (f64toI64 b))
  simp only [ftoi]
  rw [h1, h2]

/-- A finite pattern of value zero round-trips through the casts. -/
theorem ftoi_zero_sval {a : Nat} (hfa : f64_isFinite a = true)
    (hz : f64_sval a = 0) : ftoi a = some 0 := by
  have hna := finite_not_nan hfa
  have ht : f64toI64 a = 0 := by
    norm_num [f64toI64, hna, hfa, hz, Int.zero_tdiv, i64Max, i64Min]
  have h00 : i64toF64 0 = 0 := by norm_num [i64toF64, natToF64]
  have h0a : f64_isNan 0 = false := by decide
  have h0b : f64_isFinite 0 = true := by decide
  have h0c : f64_sval 0 = 0 := by decide
  have hcond : f64_eq (i64toF64 0) a = true := by
    rw [h00]
    simp [f64_eq, hna, hfa, hz, h0a, h0b, h0c]
  simp [ftoi, ht, hcond]

/-- Cancellation for normal significands: equal scaled significands force
equal exponent offsets and fractions. -/
theorem scaled_sig_inj (m1 m2 e1 e2 : Nat) (hm1 : m1 < 2^52) (hm2 : m2 < 2^52)
    (he1 : 1 ≤ e1) (he2 : 1 ≤ e2) (hle : e1 ≤ e2)
    (h : (2^52 + m1) * 2^(e1-1) = (2^52 + m2) * 2^(e2-1)) : e1 = e2 ∧ m1 = m2 := by
  have hsplit : (2^52 + m2) * 2^(e2-1) = ((2^52 + m2) * 2^(e2-e1)) * 2^(e1-1) := by
    rw [mul_assoc, ← pow_add]
    congr 2
    omega
  rw [hsplit] at h
  have hcancel : 2^52 + m1 = (2^52 + m2) * 2^(e2-e1) :=
    Nat.eq_of_mul_eq_mul_right (Nat.two_pow_pos _) h
  rcases Nat.eq_zero_or_pos (e2 - e1) with hd0 | hdpos
  · rw [hd0] at hcancel
    simp at hcancel
    omega
  · exfalso
    have h2 : (2:Nat) ≤ 2^(e2-e1) := by
      calc (2:Nat) = 2^1 := rfl
        _ ≤ 2^(e2-e1) := Nat.pow_le_pow_right (by norm_num) hdpos
    have h3 : (2^52 + m2) * 2 ≤ (2^52 + m2) * 2^(e2-e1) :=
      Nat.mul_le_mul (le_refl _) h2
    omega

/-- Equal nonzero magnitudes force equal exponent and fraction fields. -/
theorem f64_mag_inj {a b : Nat} (hm : f64_mag a = f64_mag b)
    (hnz : f64_mag a ≠ 0) : f64_exp a = f64_exp b ∧ f64_frac a = f64_frac b := by
  have hfa : f64_frac a < 2^52 := Nat.mod_lt _ (by norm_num)
  have hfb : f64_frac b < 2^52 := Nat.mod_lt _ (by norm_num)
  unfold f64_mag at hm hnz
  by_cases ha0 : f64_exp a = 0 <;> by_cases hb0 : f64_exp b = 0
  · rw [if_pos ha0, if_pos hb0] at hm
    exact ⟨ha0.trans hb0.symm, hm⟩
  · exfalso
    rw [if_pos ha0, if_neg hb0] at hm
    have hbig : 2^52 ≤ (2^52 + f64_frac b) * 2^(f64_exp b - 1) := by
      calc (2:Nat)^52 ≤ 2^52 + f64_frac b := Nat.le_add_right _ _
        _ ≤ (2^52 + f64_frac b) * 2^(f64_exp b - 1) :=
            Nat.le_mul_of_pos_right _ (Nat.two_pow_pos _)
    omega
  · exfalso
    rw [if_neg ha0, if_pos hb0] at hm
    have hbig : 2^52 ≤ (2^52 + f64_frac a) * 2^(f64_exp a - 1) := by
      calc (2:Nat)^52 ≤ 2^52 + f64_frac a := Nat.le_add_right _ _
        _ ≤ (2^52 + f64_frac a) * 2^(f64_exp a - 1) :=
            Nat.le_mul_of_pos_right _ (Nat.two_pow_pos _)
    omega
  · rw [if_neg ha0, if_neg hb0] at hm
    rcases Nat.le_total (f64_exp a) (f64_exp b) with hle | hle
    · obtain ⟨he, hmm⟩ := scaled_sig_inj _ _ _ _ hfa hfb (by omega) (by omega) hle hm
      exact ⟨he, hmm⟩
    · obtain ⟨he, hmm⟩ := scaled_sig_inj _ _ _ _ hfb hfa (by omega) (by omega) hle hm.symm
      exact ⟨he.symm, hmm.symm⟩

/-- Two finite 64-bit patterns with the same nonzero value are the same
pattern (value representation is unique apart from the two zeros). -/
theorem f64_bits_inj {a b : Nat} (ha : a < 2^64) (hb : b < 2^64)
    (hfa : f64_isFinite a = true) (hfb : f64_isFinite b = true)
    (hsv : f64_sval a = f64_sval b) (hnz : f64_sval a ≠ 0) : a = b := by
  have hmagnz : f64_mag a ≠ 0 := by
    intro hm
    apply hnz
    simp [f64_sval, hm]
  have hpair : f64_mag a = f64_mag b ∧ f64_sign a = f64_sign b := by
    unfold f64_sval at hsv
    cases hs1 : f64_sign a <;> cases hs2 : f64_sign b <;>
      rw [hs1, hs2] at hsv <;> simp at hsv
    · exact ⟨by omega, rfl⟩
    · exact absurd (by omega : f64_mag a = 0) hmagnz
    · exact absurd (by omega : f64_mag a = 0) hmagnz
    · exact ⟨by omega, rfl⟩
  obtain ⟨hmageq, hsigneq⟩ := hpair
  obtain ⟨hexp, hfrac⟩ := f64_mag_inj hmageq hmagnz
  unfold f64_sign at hsigneq
  have hiff := decide_eq_decide.mp hsigneq
  unfold f64_exp at hexp
  unfold f64_frac at hfrac
  have hs : a / 2^63 % 2 = b / 2^63 % 2 := by
    by_cases hp : a / 2^63 % 2 = 1
    · rw [hp, hiff.mp hp]
    · have hq : ¬ b / 2^63 % 2 = 1 := fun hh => hp (hiff.mpr hh)
      omega
  omega

/-- Hashes of IEEE-equal 64-bit float patterns agree. -/
theorem hashData_float_congr {a b : Nat} (ha : a < 2^64) (hb : b < 2^64)
    (h : f64_eq a b = true) :
    Value.hashData (Value.Float a) = Value.hashData (Value.Float b) := by
  have hftoi := ftoi_congr h
  simp only [Value.hashData, hftoi]
  cases hf : ftoi b
  case some i => rfl
  case none =>
      have hab : a = b := by
        obtain ⟨hna, hnb, hrest⟩ := f64_eq_elim h
        rcases hrest with ⟨hfa2, hfb2, hsv⟩ | ⟨hfa2, hfb2, hsg⟩
        · by_cases hz : f64_sval a = 0
          · exfalso
            have hzz := ftoi_zero_sval hfa2 hz
            rw [hftoi, hf] at hzz
            exact Option.noConfusion hzz
          · exact f64_bits_inj ha hb hfa2 hfb2 hsv hz
        · obtain ⟨he1, hf1⟩ := nonfinite_not_nan_facts hna hfa2
          obtain ⟨he2, hf2⟩ := nonfinite_not_nan_facts hnb hfb2
          unfold f64_sign at hsg
          have hiff := decide_eq_decide.mp hsg
          unfold f64_exp at he1 he2
          unfold f64_frac at hf1 hf2
          have hs : a / 2^63 % 2 = b / 2^63 % 2 := by
            by_cases hp : a / 2^63 % 2 = 1
            · rw [hp, hiff.mp hp]
            · have hq : ¬ b / 2^63 % 2 = 1 := fun hh => hp (hiff.mpr hh)
              omega
          omega
      rw [hab]

/-- A float that equals an integer under `eq` hashes as that integer. -/
theorem hash_float_of_eq_int (i : Int) (f : Nat)
    (h1 : f64_eq (i64toF64 i) f = true) (h2 : i = f64toI64 f) :
    Value.hashData (Value.Float f) = HashData.int i := by
  have hcond : ftoi f = some i := by
    simp [ftoi, ← h2, h1]
  simp [Value.hashData, hcond]

/-- An infinity is neither NaN nor finite. -/
theorem inf_facts {a : Nat} (h : f64_isInf a = true) :
    f64_isNan a = false ∧ f64_isFinite a = false := by
  simp only [f64_isInf, Bool.and_eq_true_iff, beq_iff_eq] at h
  obtain ⟨he, hf⟩ := h
  constructor
  · simp [f64_isNan, he, hf]
  · simp [f64_isFinite, he]

/-- C3 counterexample: the out-of-range float `2^63` (the pattern produced
by casting `i64::MAX`, since that cast rounds up) compares equal to
`Integer(i64::MAX)`: the rounded cast and the saturating cast round-trip,
so `eq` is true even though the float's value exceeds every `i64`;
the claim's "false for any out-of-range float" clause fails here. -/
theorem c3_cex_out_of_range :
    Value.eq 0 1 (Value.Integer i64Max) (Value.Float (i64toF64 i64Max)) = true ∧
    f64_isFinite (i64toF64 i64Max) = true ∧
    i64Max * ((2^1074 : Nat) : Int) < f64_sval (i64toF64 i64Max) := by
  decide

/-- C3 (amended): for every i64 `i` and float `f`, `eq(Integer i, Float f)`
(in either argument order) is exactly "`i as f64 == f` and `i == f as i64`"
(round trip through the Rust casts), and it is false whenever `f` is NaN or
an infinity. An out-of-range finite float is not always rejected: `2^63`
compares equal to `Integer(2^63 - 1)` because the integer-to-float cast
rounds up and the float-to-integer cast saturates. -/
theorem c3_integer_float_equality :
    ∀ (pa pb : Nat) (i : Int) (f : Nat),
      (Value.eq pa pb (Value.Integer i) (Value.Float f) =
        (f64_eq (i64toF64 i) f && i == f64toI64 f)) ∧
      (Value.eq pa pb (Value.Float f) (Value.Integer i) =
        Value.eq pa pb (Value.Integer i) (Value.Float f)) ∧
      (i64Min ≤ i → i ≤ i64Max → (f64_isNan f = true ∨ f64_isInf f = true) →
        Value.eq pa pb (Value.Integer i) (Value.Float f) = false) := by
  intro pa pb i f
  refine ⟨rfl, rfl, ?_⟩
  intro h1 h2 h3
  have hfin := (i64toF64_repr i h1 h2).2
  show (f64_eq (i64toF64 i) f && i == f64toI64 f) = false
  rcases h3 with hnan | hinf
  · simp [f64_eq, hnan]
  · obtain ⟨hnn, hnf⟩ := inf_facts hinf
    have hxn := finite_not_nan hfin
    simp [f64_eq, hnn, hnf, hxn, hfin]

theorem c3_witness :
    Value.eq 0 1 (Value.Integer 0) (Value.Float (2047 * 2^52)) = false :=
  (c3_integer_float_equality 0 1 0 (2047 * 2^52)).2.2 (by decide) (by decide)
    (Or.inr (by decide))

/-- C2: equality implies hash equality. For any two representable Values
that compare equal under `eq` (the address hypothesis `pa = pb → a = b`
states that equal addresses mean the same object), the data fed to the
hasher coincides; in particular a Float that round-trips to an integer
hashes as the equal Integer, and every string variant hashes its decoded
content, so strings of equal content hash equal across size classes. -/
theorem c2_eq_implies_hash_eq :
    (∀ (pa pb : Nat) (a b : Value), a.wf = true → b.wf = true →
      (pa = pb → a = b) → Value.eq pa pb a b = true → a.hashData = b.hashData) ∧
    (∀ v : Value, v.isStr = true → v.hashData = HashData.bytes v.strContent) := by
  constructor
  · intro pa pb a b hwa hwb haddr heq
    cases a <;> cases b <;> first
      | exact Bool.noConfusion heq
      | rfl
      | (rename_i x y
         have h2 : (x == y) = true := heq
         cases eq_of_beq h2
         rfl)
      | (rename_i l1 c1 l2 c2
         have h2 : (c1.take l1 == c2.take l2) = true := heq
         exact congrArg HashData.bytes (eq_of_beq h2))
      | (rename_i i f
         have h2 : (f64_eq (i64toF64 i) f && i == f64toI64 f) = true := heq
         obtain ⟨ha2, hb2⟩ := Bool.and_eq_true_iff.mp h2
         exact (hash_float_of_eq_int i f ha2 (eq_of_beq hb2)).symm)
      | (rename_i f i
         have h2 : (f64_eq (i64toF64 i) f && i == f64toI64 f) = true := heq
         obtain ⟨ha2, hb2⟩ := Bool.and_eq_true_iff.mp h2
         exact hash_float_of_eq_int i f ha2 (eq_of_beq hb2))
      | (rename_i f1 f2
         have hw1 : f1 < 2^64 := of_decide_eq_true hwa
         have hw2 : f2 < 2^64 := of_decide_eq_true hwb
         exact hashData_float_congr hw1 hw2 heq)
      | (rename_i p q
         have h2 : (pa == pb) = true := heq
         have h3 := haddr (eq_of_beq h2)
         injection h3 with h4
         cases h4
         rfl)
  · intro v h
    cases v <;> first | rfl | exact Bool.noConfusion h

theorem c2_witness :
    Value.hashData (Value.Integer 3) = Value.hashData (Value.Float (i64toF64 3)) :=
  c2_eq_implies_hash_eq.1 0 1 (Value.Integer 3) (Value.Float (i64toF64 3))
    (by decide) (by decide) (fun h => absurd h (by decide)) (by decide)
